import Mathlib

/-!
Verification development for the fix-feed-simulator repository.

The C++ components under verification are shallowly embedded as Lean
functions over explicit state records:

* LockFreeRingBuffer (include/core/nonblocking_ring_buffer.h) becomes
  LFState together with LFState.push, LFState.pop, LFState.size and
  LFState.capacity.  The atomic cursors are modelled as natural-number
  counters (the source keeps them monotonically increasing and never
  wraps them in index space), and the std::array storage as a function
  from slot indices to elements.
* BlockingRingBuffer (blocking_ring_buffer.hpp) becomes BState with
  BState.push, BState.pop and BState.stop.  The size_t counter is kept
  modulo 2 to the 64, faithfully to size_t wrap-around, because the
  shutdown paths can underflow it.
* FIXMessage (include/fix/message.h) becomes byte-list functions
  addField and finalize.
* RandomWalkGenerator (include/market/random_walk_generator.h) becomes
  getNextPrice over exact rationals.
* PacketCapturer.handlePacket (packet capture header) becomes
  handlePacket over byte lists.
-/

set_option linter.unusedVariables false

namespace FeedSim

/-! ## Lock-free SPSC ring buffer (nonblocking_ring_buffer.h) -/

/-- State of a LockFreeRingBuffer of element type alpha.  The template
parameter Capacity is passed to the operations explicitly.  The two
atomic cursors are monotonically increasing counters; the buffer is the
backing std::array, read and written at masked indices. -/
structure LFState (α : Type) where
  writeIndex : Nat
  readIndex : Nat
  buffer : Nat → α

/-- LockFreeRingBuffer::push.  Reads the write cursor and the read
cursor, fails when nextWrite - currentRead > Capacity, otherwise stores
the item at currentWrite AND (Capacity - 1) and publishes the
incremented write cursor.  Returns whether the write occurred, paired
with the state after the call. -/
def LFState.push {α : Type} (Cap : Nat) (s : LFState α) (item : α) :
    Bool × LFState α :=
  let currentWrite := s.writeIndex
  let nextWrite := currentWrite + 1
  let currentRead := s.readIndex
  if nextWrite - currentRead > Cap then
    (false, s)
  else
    (true,
      { s with
        buffer := fun i => if i = currentWrite &&& (Cap - 1) then item else s.buffer i,
        writeIndex := nextWrite })

/-- LockFreeRingBuffer::pop.  The reference out-parameter is modelled by
threading its previous value: the result is (returned bool, state after
the call, value held by the out-parameter after the call). -/
def LFState.pop {α : Type} (Cap : Nat) (s : LFState α) (value : α) :
    Bool × LFState α × α :=
  let currentRead := s.readIndex
  let currentWrite := s.writeIndex
  if currentRead = currentWrite then
    (false, s, value)
  else
    (true, { s with readIndex := currentRead + 1 }, s.buffer (currentRead &&& (Cap - 1)))

/-- LockFreeRingBuffer::size: tail - head on the two cursors. -/
def LFState.size {α : Type} (s : LFState α) : Nat :=
  s.writeIndex - s.readIndex

/-- LockFreeRingBuffer::capacity: returns the template parameter. -/
def LFState.capacity {α : Type} (Cap : Nat) (s : LFState α) : Nat :=
  Cap

/-- A freshly constructed LockFreeRingBuffer: both cursors zero, the
backing array default-initialised. -/
def LFState.init (α : Type) [Inhabited α] : LFState α :=
  { writeIndex := 0, readIndex := 0, buffer := fun _ => default }

/-- A queue operation issued by the producer (push) or consumer (pop). -/
inductive QOp (α : Type) where
  | push (item : α)
  | pop

/-- One operation applied to a lock-free queue state; for pop the
out-parameter starts at the default element, as the consumer thread in
the orchestrator declares a default-constructed tick. -/
def LFState.step {α : Type} [Inhabited α] (Cap : Nat) (s : LFState α) :
    QOp α → LFState α
  | QOp.push item => (LFState.push Cap s item).2
  | QOp.pop => (LFState.pop Cap s default).2.1

/-- Running a sequence of queue operations on a lock-free queue state. -/
def LFState.run {α : Type} [Inhabited α] (Cap : Nat) :
    List (QOp α) → LFState α → LFState α
  | [], s => s
  | op :: ops, s => LFState.run Cap ops (LFState.step Cap s op)

/-- The cursor invariant of the lock-free queue: the read cursor never
overtakes the write cursor and the occupancy never exceeds Capacity. -/
def LFInv {α : Type} (Cap : Nat) (s : LFState α) : Prop :=
  s.readIndex ≤ s.writeIndex ∧ s.writeIndex - s.readIndex ≤ Cap

/-- The market tick of the example scenario in the specification. -/
structure MarketTick where
  symbol : String
  bid : ℚ
  ask : ℚ
  bidSize : Nat
  askSize : Nat

instance : Inhabited MarketTick :=
  ⟨{ symbol := "", bid := 0, ask := 0, bidSize := 0, askSize := 0 }⟩

/-- The tick pushed in the example scenario of the specification. -/
def exampleTick : MarketTick :=
  { symbol := "ESZ5", bid := 100, ask := 100 + 1/4, bidSize := 100, askSize := 75 }

/-- Scenario states: four consecutive pushes into a capacity-4 queue. -/
def lfScn1 : LFState MarketTick := (LFState.push 4 (LFState.init MarketTick) exampleTick).2

def lfScn2 : LFState MarketTick := (LFState.push 4 lfScn1 exampleTick).2

def lfScn3 : LFState MarketTick := (LFState.push 4 lfScn2 exampleTick).2

def lfScn4 : LFState MarketTick := (LFState.push 4 lfScn3 exampleTick).2

/-- Scenario state after one pop from the full capacity-4 queue. -/
def lfScn5 : LFState MarketTick := (LFState.pop 4 lfScn4 default).2.1

theorem lf_push_false_iff {α : Type} (Cap : Nat) (s : LFState α) (item : α) :
    (LFState.push Cap s item).1 = false ↔ s.writeIndex + 1 - s.readIndex > Cap := by
  unfold LFState.push
  by_cases h : s.writeIndex + 1 - s.readIndex > Cap <;> simp [h]

theorem lf_push_false_state {α : Type} (Cap : Nat) (s : LFState α) (item : α) :
    (LFState.push Cap s item).1 = false → (LFState.push Cap s item).2 = s := by
  unfold LFState.push
  by_cases h : s.writeIndex + 1 - s.readIndex > Cap <;> simp [h]

theorem lf_push_true_state {α : Type} (Cap : Nat) (s : LFState α) (item : α) :
    (LFState.push Cap s item).1 = true →
      (LFState.push Cap s item).2.writeIndex = s.writeIndex + 1 ∧
      (LFState.push Cap s item).2.readIndex = s.readIndex ∧
      (LFState.push Cap s item).2.buffer (s.writeIndex &&& (Cap - 1)) = item ∧
      (∀ j, j ≠ s.writeIndex &&& (Cap - 1) →
        (LFState.push Cap s item).2.buffer j = s.buffer j) := by
  unfold LFState.push
  by_cases h : s.writeIndex + 1 - s.readIndex > Cap
  · simp [h]
  · simp [h]
    intro j hj
    simp [hj]

theorem lf_pop_false_iff {α : Type} (Cap : Nat) (s : LFState α) (v : α) :
    (LFState.pop Cap s v).1 = false ↔ s.readIndex = s.writeIndex := by
  unfold LFState.pop
  by_cases h : s.readIndex = s.writeIndex <;> simp [h]

theorem lf_pop_false_state {α : Type} (Cap : Nat) (s : LFState α) (v : α) :
    (LFState.pop Cap s v).1 = false →
      (LFState.pop Cap s v).2.1 = s ∧ (LFState.pop Cap s v).2.2 = v := by
  unfold LFState.pop
  by_cases h : s.readIndex = s.writeIndex <;> simp [h]

theorem lf_step_inv {α : Type} [Inhabited α] (Cap : Nat) (s : LFState α)
    (op : QOp α) (h : LFInv Cap s) : LFInv Cap (LFState.step Cap s op) := by
  obtain ⟨h1, h2⟩ := h
  cases op with
  | push item =>
    by_cases hf : s.writeIndex + 1 - s.readIndex > Cap
    · simp only [LFState.step, LFState.push, hf, if_true, LFInv]
      exact ⟨h1, h2⟩
    · simp only [LFState.step, LFState.push, hf, if_false, LFInv]
      constructor
      · exact le_trans h1 (Nat.le_succ _)
      · omega
  | pop =>
    by_cases he : s.readIndex = s.writeIndex
    · simp only [LFState.step, LFState.pop, he, if_true, LFInv]
      omega
    · simp only [LFState.step, LFState.pop, he, if_false, LFInv]
      constructor
      · omega
      · omega

theorem lf_run_inv {α : Type} [Inhabited α] (Cap : Nat) (ops : List (QOp α))
    (s : LFState α) (h : LFInv Cap s) : LFInv Cap (LFState.run Cap ops s) := by
  induction ops generalizing s with
  | nil => exact h
  | cons op ops ih => exact ih (LFState.step Cap s op) (lf_step_inv Cap s op h)

theorem lf_init_inv {α : Type} [Inhabited α] (Cap : Nat) :
    LFInv Cap (LFState.init α) := by
  constructor <;> simp [LFState.init, LFInv]

/-- C1: push fails exactly when writeCursor + 1 - readCursor exceeds
Capacity, in which case the state is unchanged; otherwise it writes the
item into slot writeCursor AND (Capacity - 1), increments the write
cursor and returns true.  pop fails exactly when the cursors are equal.
On a capacity-4 lock-free queue starting empty, four pushes of the
example tick succeed, a fifth fails, and after one pop a sixth push
succeeds. -/
theorem c1_lockfree_push_pop_contract :
    (∀ (α : Type) (Cap : Nat) (s : LFState α) (item : α),
        ((LFState.push Cap s item).1 = false ↔ s.writeIndex + 1 - s.readIndex > Cap) ∧
        ((LFState.push Cap s item).1 = false → (LFState.push Cap s item).2 = s) ∧
        ((LFState.push Cap s item).1 = true →
          (LFState.push Cap s item).2.writeIndex = s.writeIndex + 1 ∧
          (LFState.push Cap s item).2.readIndex = s.readIndex ∧
          (LFState.push Cap s item).2.buffer (s.writeIndex &&& (Cap - 1)) = item)) ∧
    (∀ (α : Type) (Cap : Nat) (s : LFState α) (v : α),
        ((LFState.pop Cap s v).1 = false ↔ s.readIndex = s.writeIndex)) ∧
    ((LFState.push 4 (LFState.init MarketTick) exampleTick).1 = true ∧
      (LFState.push 4 lfScn1 exampleTick).1 = true ∧
      (LFState.push 4 lfScn2 exampleTick).1 = true ∧
      (LFState.push 4 lfScn3 exampleTick).1 = true ∧
      (LFState.push 4 lfScn4 exampleTick).1 = false ∧
      (LFState.pop 4 lfScn4 (default : MarketTick)).1 = true ∧
      (LFState.push 4 lfScn5 exampleTick).1 = true) := by
  refine ⟨?_, ?_, ?_⟩
  · intro α Cap s item
    refine ⟨lf_push_false_iff Cap s item, lf_push_false_state Cap s item, ?_⟩
    intro h
    obtain ⟨hw, hr, hb, _⟩ := lf_push_true_state Cap s item h
    exact ⟨hw, hr, hb⟩
  · intro α Cap s v
    exact lf_pop_false_iff Cap s v
  · decide

/-- Witness for C1: its conditional clauses applied at concrete inputs.
A full capacity-4 queue rejects a push leaving the state unchanged, and
an accepted push on the empty queue advances the write cursor to 1. -/
theorem c1_witness :
    (LFState.push 4 lfScn4 exampleTick).2 = lfScn4 ∧
    (LFState.push 4 (LFState.init MarketTick) exampleTick).2.writeIndex = 1 := by
  constructor
  · exact (c1_lockfree_push_pop_contract.1 MarketTick 4 lfScn4 exampleTick).2.1 (by decide)
  · exact ((c1_lockfree_push_pop_contract.1 MarketTick 4 (LFState.init MarketTick)
      exampleTick).2.2 (by decide)).1

/-- C2: after every sequence of push and pop operations starting from
the empty queue, the occupancy writeCursor - readCursor lies in
[0, Capacity] (the read cursor never overtakes the write cursor), size
returns exactly that difference, and capacity returns Capacity. -/
theorem c2_lockfree_occupancy_invariant (α : Type) [Inhabited α] (Cap : Nat)
    (ops : List (QOp α)) :
    (LFState.run Cap ops (LFState.init α)).readIndex ≤
      (LFState.run Cap ops (LFState.init α)).writeIndex ∧
    (LFState.run Cap ops (LFState.init α)).writeIndex -
      (LFState.run Cap ops (LFState.init α)).readIndex ≤ Cap ∧
    LFState.size (LFState.run Cap ops (LFState.init α)) =
      (LFState.run Cap ops (LFState.init α)).writeIndex -
        (LFState.run Cap ops (LFState.init α)).readIndex ∧
    LFState.capacity Cap (LFState.run Cap ops (LFState.init α)) = Cap := by
  obtain ⟨h1, h2⟩ := lf_run_inv Cap ops (LFState.init α) (lf_init_inv Cap)
  exact ⟨h1, h2, rfl, rfl⟩

/-- C10: lock-free failures are atomic.  When push returns false the
state (cursors and every slot) is exactly the state before the call,
and when pop returns false both the state and the out-parameter are
exactly as before the call. -/
theorem c10_lockfree_failure_atomicity (α : Type) (Cap : Nat)
    (s t : LFState α) (item v : α) :
    ((LFState.push Cap s item).1 = false → (LFState.push Cap s item).2 = s) ∧
    ((LFState.pop Cap t v).1 = false →
      (LFState.pop Cap t v).2.1 = t ∧ (LFState.pop Cap t v).2.2 = v) := by
  exact ⟨lf_push_false_state Cap s item, lf_pop_false_state Cap t v⟩

/-- Witness for C10: the failing fifth push on the full capacity-4
queue leaves it unchanged, and a failing pop on the empty queue leaves
the state and out-parameter unchanged. -/
theorem c10_witness :
    (LFState.push 4 lfScn4 exampleTick).2 = lfScn4 ∧
    (LFState.pop 4 (LFState.init MarketTick) exampleTick).2.1 = LFState.init MarketTick ∧
    (LFState.pop 4 (LFState.init MarketTick) exampleTick).2.2 = exampleTick := by
  refine ⟨?_, ?_⟩
  · exact (c10_lockfree_failure_atomicity MarketTick 4 lfScn4 (LFState.init MarketTick)
      exampleTick exampleTick).1 (by decide)
  · exact (c10_lockfree_failure_atomicity MarketTick 4 lfScn4 (LFState.init MarketTick)
      exampleTick exampleTick).2 (by decide)

/-! ## Blocking SPSC ring buffer (blocking_ring_buffer.hpp) -/

/-- The modulus of the size_t counter fields. -/
def W64 : Nat := 2 ^ 64

/-- State of a BlockingRingBuffer of element type alpha: the backing
std::array, the two wrapping indices, the explicit element counter (a
size_t, kept modulo 2 to the 64) and the shutdown flag. -/
structure BState (α : Type) where
  buffer : Nat → α
  writeIndex : Nat
  readIndex : Nat
  count : Nat
  stopped : Bool

/-- The predicate of the wait in BlockingRingBuffer::push: there is
space, or the shutdown flag is set. -/
def pushWaitCond {α : Type} (Cap : Nat) (s : BState α) : Prop :=
  s.count < Cap ∨ s.stopped = true

/-- The predicate of the wait in BlockingRingBuffer::pop: there is an
item, or the shutdown flag is set. -/
def popWaitCond {α : Type} (s : BState α) : Prop :=
  s.count > 0 ∨ s.stopped = true

instance {α : Type} (Cap : Nat) (s : BState α) : Decidable (pushWaitCond Cap s) :=
  inferInstanceAs (Decidable (s.count < Cap ∨ s.stopped = true))

instance {α : Type} (s : BState α) : Decidable (popWaitCond s) :=
  inferInstanceAs (Decidable (s.count > 0 ∨ s.stopped = true))

/-- BlockingRingBuffer::push.  A call whose wait condition cannot be
met at this point of a sequential replay never returns and is modelled
as none; a returning call writes the item at writeIndex, advances
writeIndex round robin, increments the counter and returns true. -/
def BState.push {α : Type} (Cap : Nat) (s : BState α) (item : α) :
    Option (Bool × BState α) :=
  if pushWaitCond Cap s then
    some (true,
      { s with
        buffer := fun i => if i = s.writeIndex then item else s.buffer i,
        writeIndex := (s.writeIndex + 1) % Cap,
        count := (s.count + 1) % W64 })
  else none

/-- BlockingRingBuffer::pop.  A returning call reads slot readIndex,
advances readIndex round robin, decrements the counter (size_t
arithmetic, so an underflow wraps) and returns true together with the
value placed in the out-parameter. -/
def BState.pop {α : Type} (Cap : Nat) (s : BState α) :
    Option (Bool × BState α × α) :=
  if popWaitCond s then
    some (true,
      { s with
        readIndex := (s.readIndex + 1) % Cap,
        count := (s.count + (W64 - 1)) % W64 },
      s.buffer s.readIndex)
  else none

/-- BlockingRingBuffer::stop: sets the shutdown flag (under the lock in
the source) and wakes all waiters on both condition variables. -/
def BState.stop {α : Type} (s : BState α) : BState α :=
  { s with stopped := true }

/-- A freshly constructed BlockingRingBuffer. -/
def BState.init (α : Type) [Inhabited α] : BState α :=
  { buffer := fun _ => default, writeIndex := 0, readIndex := 0,
    count := 0, stopped := false }

/-- An observable result of one queue operation. -/
inductive QEvent (α : Type) where
  | pushed (ok : Bool)
  | popped (v : Option α)
deriving DecidableEq

/-- An operation on the blocking queue, including shutdown. -/
inductive BOp (α : Type) where
  | push (item : α)
  | pop
  | stop

/-- Sequential replay of operations on the blocking queue, recording
for each push or pop the result it reports.  The replay is none when
some call can never return (its wait condition cannot be satisfied at
that point). -/
def BState.runFull {α : Type} (Cap : Nat) :
    List (BOp α) → BState α → Option (List (QEvent α) × BState α)
  | [], s => some ([], s)
  | BOp.push item :: ops, s =>
    match BState.push Cap s item with
    | none => none
    | some (ok, s1) =>
      match BState.runFull Cap ops s1 with
      | none => none
      | some (evs, t) => some (QEvent.pushed ok :: evs, t)
  | BOp.pop :: ops, s =>
    match BState.pop Cap s with
    | none => none
    | some (ok, s1, v) =>
      match BState.runFull Cap ops s1 with
      | none => none
      | some (evs, t) =>
        some (QEvent.popped (if ok then some v else none) :: evs, t)
  | BOp.stop :: ops, s => BState.runFull Cap ops (BState.stop s)

/-- Sequential replay of push and pop operations (no stop) on the
blocking queue. -/
def BState.runB {α : Type} (Cap : Nat) :
    List (QOp α) → BState α → Option (List (QEvent α) × BState α)
  | [], s => some ([], s)
  | QOp.push item :: ops, s =>
    match BState.push Cap s item with
    | none => none
    | some (ok, s1) =>
      match BState.runB Cap ops s1 with
      | none => none
      | some (evs, t) => some (QEvent.pushed ok :: evs, t)
  | QOp.pop :: ops, s =>
    match BState.pop Cap s with
    | none => none
    | some (ok, s1, v) =>
      match BState.runB Cap ops s1 with
      | none => none
      | some (evs, t) =>
        some (QEvent.popped (if ok then some v else none) :: evs, t)

/-- Number of push operations in a sequence. -/
def numPushes {α : Type} : List (QOp α) → Nat
  | [] => 0
  | QOp.push _ :: ops => numPushes ops + 1
  | QOp.pop :: ops => numPushes ops

/-- Number of pop operations in a sequence. -/
def numPops {α : Type} : List (QOp α) → Nat
  | [] => 0
  | QOp.push _ :: ops => numPops ops
  | QOp.pop :: ops => numPops ops + 1

/-- Invariant of the blocking queue while no stop has occurred. -/
def BInvNS {α : Type} (Cap : Nat) (s : BState α) : Prop :=
  s.count ≤ Cap ∧ s.readIndex < Cap ∧ s.writeIndex = (s.readIndex + s.count) % Cap ∧
    s.stopped = false

/-- Weak invariant of the blocking queue (holds across shutdown): the
two indices stay inside the array. -/
def BInvW {α : Type} (Cap : Nat) (s : BState α) : Prop :=
  s.writeIndex < Cap ∧ s.readIndex < Cap

theorem b_count_inc {c : Nat} (h : c + 1 < W64) : (c + 1) % W64 = c + 1 :=
  Nat.mod_eq_of_lt h

theorem b_count_dec {c : Nat} (h1 : 1 ≤ c) (h2 : c < W64) :
    (c + (W64 - 1)) % W64 = c - 1 := by
  have hpos : 0 < W64 := by norm_num [W64]
  have he : c + (W64 - 1) = (c - 1) + W64 := by omega
  rw [he, Nat.add_mod_right]
  exact Nat.mod_eq_of_lt (by omega)

/-- The state after a returning BlockingRingBuffer::push call. -/
def bPushed {α : Type} (Cap : Nat) (s : BState α) (item : α) : BState α :=
  { s with
    buffer := fun i => if i = s.writeIndex then item else s.buffer i,
    writeIndex := (s.writeIndex + 1) % Cap,
    count := (s.count + 1) % W64 }

/-- The state after a returning BlockingRingBuffer::pop call. -/
def bPopped {α : Type} (Cap : Nat) (s : BState α) : BState α :=
  { s with
    readIndex := (s.readIndex + 1) % Cap,
    count := (s.count + (W64 - 1)) % W64 }

theorem b_push_eq_of_cond {α : Type} (Cap : Nat) (s : BState α) (item : α)
    (h : pushWaitCond Cap s) :
    BState.push Cap s item = some (true, bPushed Cap s item) := by
  simp [BState.push, bPushed, h]

theorem b_pop_eq_of_cond {α : Type} (Cap : Nat) (s : BState α)
    (h : popWaitCond s) :
    BState.pop Cap s = some (true, bPopped Cap s, s.buffer s.readIndex) := by
  simp [BState.pop, bPopped, h]

theorem b_push_none {α : Type} (Cap : Nat) (s : BState α) (item : α)
    (h : ¬ pushWaitCond Cap s) : BState.push Cap s item = none := by
  simp [BState.push, h]

theorem b_pop_none {α : Type} (Cap : Nat) (s : BState α)
    (h : ¬ popWaitCond s) : BState.pop Cap s = none := by
  simp [BState.pop, h]

theorem bPushed_inv {α : Type} {Cap : Nat} {s : BState α} (item : α)
    (hCap : 0 < Cap) (hW : Cap < W64) (hInv : BInvNS Cap s)
    (hlt : s.count < Cap) :
    BInvNS Cap (bPushed Cap s item) ∧ (bPushed Cap s item).count = s.count + 1 := by
  obtain ⟨hc, hr, hwix, hstop⟩ := hInv
  have hc1 : (s.count + 1) % W64 = s.count + 1 := b_count_inc (by omega)
  refine ⟨⟨?_, ?_, ?_, ?_⟩, ?_⟩
  · simp [bPushed, hc1]; omega
  · simpa [bPushed] using hr
  · simp only [bPushed, hc1, hwix]
    rw [Nat.mod_add_mod, Nat.add_assoc]
  · simpa [bPushed] using hstop
  · simp [bPushed, hc1]

theorem bPopped_inv {α : Type} {Cap : Nat} {s : BState α}
    (hCap : 0 < Cap) (hW : Cap < W64) (hInv : BInvNS Cap s)
    (hpos : 0 < s.count) :
    BInvNS Cap (bPopped Cap s) ∧ (bPopped Cap s).count = s.count - 1 := by
  obtain ⟨hc, hr, hwix, hstop⟩ := hInv
  have hc1 : (s.count + (W64 - 1)) % W64 = s.count - 1 :=
    b_count_dec (by omega) (by omega)
  refine ⟨⟨?_, ?_, ?_, ?_⟩, ?_⟩
  · simp [bPopped, hc1]; omega
  · simpa [bPopped] using Nat.mod_lt _ hCap
  · simp only [bPopped, hc1, hwix]
    rw [Nat.mod_add_mod]
    have he : s.readIndex + 1 + (s.count - 1) = s.readIndex + s.count := by omega
    rw [he]
  · simpa [bPopped] using hstop
  · simp [bPopped, hc1]

theorem b_runB_inv {α : Type} (Cap : Nat) (hCap : 0 < Cap) (hW : Cap < W64) :
    ∀ (ops : List (QOp α)) (s : BState α) (evs : List (QEvent α)) (t : BState α),
      BInvNS Cap s → BState.runB Cap ops s = some (evs, t) →
      BInvNS Cap t ∧ t.count + numPops ops = s.count + numPushes ops := by
  intro ops
  induction ops with
  | nil =>
    intro s evs t hInv h
    simp only [BState.runB, Option.some.injEq, Prod.mk.injEq] at h
    obtain ⟨-, h2⟩ := h
    subst h2
    simpa [numPushes, numPops] using hInv
  | cons op ops ih =>
    intro s evs t hInv h
    cases op with
    | push item =>
      by_cases hlt : s.count < Cap
      · simp only [BState.runB, b_push_eq_of_cond Cap s item (Or.inl hlt)] at h
        cases hrec : BState.runB Cap ops (bPushed Cap s item) with
        | none => rw [hrec] at h; exact absurd h (by simp)
        | some p =>
          rw [hrec] at h
          obtain ⟨evs1, t1⟩ := p
          simp only [Option.some.injEq, Prod.mk.injEq] at h
          obtain ⟨-, h2⟩ := h
          subst h2
          obtain ⟨hInv1, hcnt1⟩ := bPushed_inv item hCap hW hInv hlt
          obtain ⟨hInvT, hcount⟩ := ih _ _ _ hInv1 hrec
          refine ⟨hInvT, ?_⟩
          rw [hcnt1] at hcount
          simp only [numPushes, numPops] at *
          omega
      · have hcond : ¬ pushWaitCond Cap s := by
          simp [pushWaitCond, hlt, hInv.2.2.2]
        simp only [BState.runB, b_push_none Cap s item hcond] at h
        exact Option.noConfusion h
    | pop =>
      by_cases hpos : 0 < s.count
      · simp only [BState.runB, b_pop_eq_of_cond Cap s (Or.inl hpos)] at h
        cases hrec : BState.runB Cap ops (bPopped Cap s) with
        | none => rw [hrec] at h; exact absurd h (by simp)
        | some p =>
          rw [hrec] at h
          obtain ⟨evs1, t1⟩ := p
          simp only [Option.some.injEq, Prod.mk.injEq] at h
          obtain ⟨-, h2⟩ := h
          subst h2
          obtain ⟨hInv1, hcnt1⟩ := bPopped_inv hCap hW hInv hpos
          obtain ⟨hInvT, hcount⟩ := ih _ _ _ hInv1 hrec
          refine ⟨hInvT, ?_⟩
          rw [hcnt1] at hcount
          simp only [numPushes, numPops] at *
          omega
      · have hcond : ¬ popWaitCond s := by
          simp [popWaitCond, hInv.2.2.2]
          omega
        simp only [BState.runB, b_pop_none Cap s hcond] at h
        exact Option.noConfusion h

theorem b_push_some {α : Type} {Cap : Nat} {s : BState α} {item : α}
    {p : Bool × BState α} (h : BState.push Cap s item = some p) :
    p = (true, bPushed Cap s item) := by
  by_cases hc : pushWaitCond Cap s
  · rw [b_push_eq_of_cond Cap s item hc] at h
    exact (Option.some.inj h).symm
  · rw [b_push_none Cap s item hc] at h
    exact Option.noConfusion h

theorem b_pop_some {α : Type} {Cap : Nat} {s : BState α}
    {p : Bool × BState α × α} (h : BState.pop Cap s = some p) :
    p = (true, bPopped Cap s, s.buffer s.readIndex) := by
  by_cases hc : popWaitCond s
  · rw [b_pop_eq_of_cond Cap s hc] at h
    exact (Option.some.inj h).symm
  · rw [b_pop_none Cap s hc] at h
    exact Option.noConfusion h

theorem bPushed_winv {α : Type} {Cap : Nat} {s : BState α} (item : α)
    (hCap : 0 < Cap) (h : BInvW Cap s) : BInvW Cap (bPushed Cap s item) :=
  ⟨by simpa [bPushed] using Nat.mod_lt _ hCap, by simpa [bPushed] using h.2⟩

theorem bPopped_winv {α : Type} {Cap : Nat} {s : BState α}
    (hCap : 0 < Cap) (h : BInvW Cap s) : BInvW Cap (bPopped Cap s) :=
  ⟨by simpa [bPopped] using h.1, by simpa [bPopped] using Nat.mod_lt _ hCap⟩

theorem b_runFull_winv {α : Type} (Cap : Nat) (hCap : 0 < Cap) :
    ∀ (ops : List (BOp α)) (s : BState α) (evs : List (QEvent α)) (t : BState α),
      BInvW Cap s → BState.runFull Cap ops s = some (evs, t) → BInvW Cap t := by
  intro ops
  induction ops with
  | nil =>
    intro s evs t hInv h
    simp only [BState.runFull, Option.some.injEq, Prod.mk.injEq] at h
    exact h.2 ▸ hInv
  | cons op ops ih =>
    intro s evs t hInv h
    cases op with
    | push item =>
      simp only [BState.runFull] at h
      cases hp : BState.push Cap s item with
      | none => rw [hp] at h; exact Option.noConfusion h
      | some p =>
        simp only [hp, b_push_some hp] at h
        cases hrec : BState.runFull Cap ops (bPushed Cap s item) with
        | none => rw [hrec] at h; exact Option.noConfusion h
        | some q =>
          rw [hrec] at h
          obtain ⟨evs1, t1⟩ := q
          simp only [Option.some.injEq, Prod.mk.injEq] at h
          exact h.2 ▸ ih _ _ _ (bPushed_winv item hCap hInv) hrec
    | pop =>
      simp only [BState.runFull] at h
      cases hp : BState.pop Cap s with
      | none => rw [hp] at h; exact Option.noConfusion h
      | some p =>
        simp only [hp, b_pop_some hp] at h
        cases hrec : BState.runFull Cap ops (bPopped Cap s) with
        | none => rw [hrec] at h; exact Option.noConfusion h
        | some q =>
          rw [hrec] at h
          obtain ⟨evs1, t1⟩ := q
          simp only [Option.some.injEq, Prod.mk.injEq] at h
          exact h.2 ▸ ih _ _ _ (bPopped_winv hCap hInv) hrec
    | stop =>
      simp only [BState.runFull] at h
      exact ih _ _ _ ⟨by simpa [BState.stop] using hInv.1,
        by simpa [BState.stop] using hInv.2⟩ h

theorem b_runFull_after_stop {α : Type} (Cap : Nat) :
    ∀ (ops : List (BOp α)) (u : BState α), u.stopped = true →
      ∃ evs t, BState.runFull Cap ops u = some (evs, t) ∧ t.stopped = true := by
  intro ops
  induction ops with
  | nil => exact fun u h => ⟨[], u, rfl, h⟩
  | cons op ops ih =>
    intro u h
    cases op with
    | push item =>
      obtain ⟨evs, t, hrun, ht⟩ := ih (bPushed Cap u item) (by simpa [bPushed] using h)
      refine ⟨QEvent.pushed true :: evs, t, ?_, ht⟩
      simp only [BState.runFull, b_push_eq_of_cond Cap u item (Or.inr h), hrun]
    | pop =>
      obtain ⟨evs, t, hrun, ht⟩ := ih (bPopped Cap u) (by simpa [bPopped] using h)
      refine ⟨QEvent.popped (some (u.buffer u.readIndex)) :: evs, t, ?_, ht⟩
      simp [BState.runFull, b_pop_eq_of_cond Cap u (Or.inr h), hrun]
    | stop =>
      obtain ⟨evs, t, hrun, ht⟩ := ih (BState.stop u) (by simp [BState.stop])
      exact ⟨evs, t, by simpa only [BState.runFull] using hrun, ht⟩

theorem b_runFull_events {α : Type} (Cap : Nat) :
    ∀ (ops : List (BOp α)) (s : BState α) (evs : List (QEvent α)) (t : BState α),
      BState.runFull Cap ops s = some (evs, t) →
      ∀ e ∈ evs, e ≠ QEvent.pushed false ∧ e ≠ QEvent.popped none := by
  intro ops
  induction ops with
  | nil =>
    intro s evs t h
    simp only [BState.runFull, Option.some.injEq, Prod.mk.injEq] at h
    rw [← h.1]
    intro e he
    exact absurd he (List.not_mem_nil e)
  | cons op ops ih =>
    intro s evs t h
    cases op with
    | push item =>
      simp only [BState.runFull] at h
      cases hp : BState.push Cap s item with
      | none => rw [hp] at h; exact Option.noConfusion h
      | some p =>
        simp only [hp, b_push_some hp] at h
        cases hrec : BState.runFull Cap ops (bPushed Cap s item) with
        | none => rw [hrec] at h; exact Option.noConfusion h
        | some q =>
          rw [hrec] at h
          obtain ⟨evs1, t1⟩ := q
          simp only [Option.some.injEq, Prod.mk.injEq] at h
          rw [← h.1]
          intro e he
          rcases List.mem_cons.1 he with he | he
          · subst he; exact ⟨by simp, by simp⟩
          · exact ih _ _ _ hrec e he
    | pop =>
      simp only [BState.runFull] at h
      cases hp : BState.pop Cap s with
      | none => rw [hp] at h; exact Option.noConfusion h
      | some p =>
        simp only [hp, b_pop_some hp] at h
        cases hrec : BState.runFull Cap ops (bPopped Cap s) with
        | none => rw [hrec] at h; exact Option.noConfusion h
        | some q =>
          rw [hrec] at h
          obtain ⟨evs1, t1⟩ := q
          simp only [Option.some.injEq, Prod.mk.injEq] at h
          rw [← h.1]
          intro e he
          rcases List.mem_cons.1 he with he | he
          · subst he; exact ⟨by simp, by simp⟩
          · exact ih _ _ _ hrec e he
    | stop =>
      simp only [BState.runFull] at h
      exact ih _ _ _ h

theorem b_init_invNS {α : Type} [Inhabited α] {Cap : Nat} (hCap : 0 < Cap) :
    BInvNS Cap (BState.init α) :=
  ⟨Nat.zero_le _, hCap, by simp [BState.init], rfl⟩

/-- C4 (amended): in the absence of stop, after every completed
sequence of push and pop operations the counter satisfies
0 <= count <= Capacity, count equals the number of accepted pushes
minus completed pops, and writeIndex and readIndex are indices in
[0, Capacity); the index bounds hold for every sequence including
stop, but after stop() the counter can leave [0, Capacity] (see the
counterexample). -/
theorem c4_blocking_counter_invariant (α : Type) [Inhabited α] (Cap : Nat)
    (opsAll : List (BOp α)) (ops : List (QOp α))
    (evsA evs : List (QEvent α)) (tA t : BState α)
    (hCap : 0 < Cap) (hW : Cap < W64)
    (hA : BState.runFull Cap opsAll (BState.init α) = some (evsA, tA))
    (h : BState.runB Cap ops (BState.init α) = some (evs, t)) :
    (tA.writeIndex < Cap ∧ tA.readIndex < Cap) ∧
    (t.count ≤ Cap ∧ t.count + numPops ops = numPushes ops ∧
      t.writeIndex < Cap ∧ t.readIndex < Cap) := by
  constructor
  · exact b_runFull_winv Cap hCap opsAll (BState.init α) evsA tA
      ⟨by simpa [BState.init] using hCap, by simpa [BState.init] using hCap⟩ hA
  · obtain ⟨⟨hc, hr, hwix, -⟩, hcnt⟩ :=
      b_runB_inv Cap hCap hW ops (BState.init α) evs t (b_init_invNS hCap) h
    refine ⟨hc, by simpa [BState.init] using hcnt, ?_, hr⟩
    rw [hwix]
    exact Nat.mod_lt _ hCap

/-- Operation sequences used in the C4 witness. -/
def c4demoOpsAll : List (BOp Nat) := [BOp.push 5, BOp.stop, BOp.pop, BOp.pop]

def c4demoOps : List (QOp Nat) := [QOp.push 5, QOp.push 6, QOp.pop]

/-- Witness for C4: a concrete no-stop run on a capacity-4 blocking
queue ends with the counter in range and equal to pushes minus pops. -/
theorem c4_witness :
    ∃ evs t, BState.runB 4 c4demoOps (BState.init Nat) = some (evs, t) ∧
      t.count ≤ 4 ∧ t.count + numPops c4demoOps = numPushes c4demoOps ∧
      t.writeIndex < 4 ∧ t.readIndex < 4 := by
  have h := c4_blocking_counter_invariant Nat 4 c4demoOpsAll c4demoOps _ _ _ _
    (by norm_num) (by norm_num [W64]) rfl rfl
  exact ⟨_, _, rfl, h.2⟩

/-- Counterexample for C4 as stated: after stop() is called on the
empty capacity-4 blocking queue, a pop still returns and decrements the
size_t counter, wrapping it to 2^64 - 1, which is far above Capacity;
so the counter does not stay in [0, Capacity] over all sequences of
push, pop and stop operations. -/
theorem c4_counterexample :
    (BState.runFull 4 [BOp.stop, BOp.pop] (BState.init Nat)).map
        (fun p => p.2.count) = some (W64 - 1) ∧
    (BState.runFull 4 [BOp.stop, BOp.pop] (BState.init Nat)).map
        (fun p => decide (p.2.count ≤ 4)) = some false :=
  ⟨rfl, rfl⟩

/-- C5: blocking push and pop never report failure: every returning
push returns true having written the item at writeIndex and incremented
the counter; every returning pop returns true having read slot
readIndex and decremented the counter; and no completed operation
sequence, including ones whose waits were satisfied only by the
shutdown flag, contains a failed push or pop event. -/
theorem c5_blocking_never_fails (α : Type) (Cap : Nat) (s : BState α) (item : α)
    (ops : List (BOp α)) (evs : List (QEvent α)) (t : BState α) :
    (pushWaitCond Cap s → BState.push Cap s item = some (true, bPushed Cap s item)) ∧
    (popWaitCond s → BState.pop Cap s = some (true, bPopped Cap s, s.buffer s.readIndex)) ∧
    ((bPushed Cap s item).buffer s.writeIndex = item ∧
      (bPushed Cap s item).count = (s.count + 1) % W64) ∧
    ((bPopped Cap s).count = (s.count + (W64 - 1)) % W64) ∧
    (BState.runFull Cap ops s = some (evs, t) →
      ∀ e ∈ evs, e ≠ QEvent.pushed false ∧ e ≠ QEvent.popped none) := by
  refine ⟨b_push_eq_of_cond Cap s item, b_pop_eq_of_cond Cap s, ⟨?_, rfl⟩, rfl, ?_⟩
  · simp [bPushed]
  · exact fun h => b_runFull_events Cap ops s evs t h

/-- The concrete blocking-queue state of the C5 witness: full and
stopped, so only the shutdown flag satisfies the push wait. -/
def c5demoState : BState Nat :=
  { buffer := fun _ => 0, writeIndex := 2, readIndex := 2, count := 4, stopped := true }

/-- Witness for C5: on a full stopped capacity-4 queue both push and
pop return true with the documented effects. -/
theorem c5_witness :
    BState.push 4 c5demoState 9 = some (true, bPushed 4 c5demoState 9) ∧
    BState.pop 4 c5demoState =
      some (true, bPopped 4 c5demoState, c5demoState.buffer c5demoState.readIndex) := by
  have h := c5_blocking_never_fails Nat 4 c5demoState 9 [] [] c5demoState
  exact ⟨h.1 (by decide), h.2.1 (by decide)⟩

/-- C9: stop() sets the shutdown flag; with the flag set both wait
predicates hold in every queue state (empty, full or partial), so a
woken waiter leaves its wait instead of re-blocking; and after stop
every further operation sequence completes (nothing can block again)
with the flag still set and both wait predicates still true. -/
theorem c9_shutdown_liveness (α : Type) (Cap : Nat) (s u : BState α)
    (ops : List (BOp α)) (h : u.stopped = true) :
    (BState.stop s).stopped = true ∧
    pushWaitCond Cap (BState.stop s) ∧ popWaitCond (BState.stop s) ∧
    (∃ evs t, BState.runFull Cap ops u = some (evs, t) ∧ t.stopped = true ∧
      pushWaitCond Cap t ∧ popWaitCond t) := by
  refine ⟨rfl, Or.inr rfl, Or.inr rfl, ?_⟩
  obtain ⟨evs, t, hrun, ht⟩ := b_runFull_after_stop Cap ops u h
  exact ⟨evs, t, hrun, ht, Or.inr ht, Or.inr ht⟩

/-- Witness for C9: stopping the empty capacity-4 queue sets the flag,
and a subsequent push and two pops all complete with the flag set. -/
theorem c9_witness :
    (BState.stop (BState.init Nat)).stopped = true ∧
    (∃ evs t, BState.runFull 4 [BOp.push 3, BOp.pop, BOp.pop]
        (BState.stop (BState.init Nat)) = some (evs, t) ∧ t.stopped = true ∧
      pushWaitCond 4 t ∧ popWaitCond t) := by
  have h := c9_shutdown_liveness Nat 4 (BState.init Nat)
    (BState.stop (BState.init Nat)) [BOp.push 3, BOp.pop, BOp.pop] (by decide)
  exact ⟨h.1, h.2.2.2⟩

/-! ## FIFO refinement of both ring buffers (C3) -/

theorem land_mask_eq_mod (k x : Nat) : x &&& (2 ^ k - 1) = x % 2 ^ k :=
  Nat.and_pow_two_sub_one_eq_mod x k

theorem mod_ne_of_lt_of_sub_lt {n a b : Nat} (hab : a < b) (h : b - a < n) :
    a % n ≠ b % n := by
  intro he
  have he2 : Nat.ModEq n a b := he
  have hd : n ∣ b - a := (Nat.modEq_iff_dvd' (Nat.le_of_lt hab)).1 he2
  have hle := Nat.le_of_dvd (by omega) hd
  omega

/-- The sequence of queued elements of a lock-free queue state: the
slots from the read cursor up to the write cursor, in cursor order. -/
def LFState.toList {α : Type} (Cap : Nat) (s : LFState α) : List α :=
  (List.range (s.writeIndex - s.readIndex)).map
    (fun i => s.buffer ((s.readIndex + i) &&& (Cap - 1)))

/-- The sequence of queued elements of a blocking queue state: count
slots starting at readIndex, in ring order. -/
def BState.toList {α : Type} (Cap : Nat) (s : BState α) : List α :=
  (List.range s.count).map (fun i => s.buffer ((s.readIndex + i) % Cap))

theorem lf_toList_length {α : Type} (Cap : Nat) (s : LFState α) :
    (LFState.toList Cap s).length = s.writeIndex - s.readIndex := by
  simp [LFState.toList]

theorem b_toList_length {α : Type} (Cap : Nat) (s : BState α) :
    (BState.toList Cap s).length = s.count := by
  simp [BState.toList]

/-- Modelled from the spec: push on the abstract bounded FIFO list
queue of the testable-properties section (the refinement target absent
from the sources) — appends at the tail when there is room, otherwise
rejects. -/
def FifoPush {α : Type} (Cap : Nat) (l : List α) (x : α) : Bool × List α :=
  if l.length < Cap then (true, l ++ [x]) else (false, l)

/-- Modelled from the spec: pop on the abstract FIFO list queue —
removes and returns the head when nonempty. -/
def FifoPop {α : Type} : List α → Option (α × List α)
  | [] => none
  | x :: xs => some (x, xs)

/-- Replay of queue operations on the abstract FIFO list queue,
recording each result. -/
def runFifo {α : Type} (Cap : Nat) :
    List (QOp α) → List α → List (QEvent α) × List α
  | [], l => ([], l)
  | QOp.push x :: ops, l =>
    let r := FifoPush Cap l x
    let rest := runFifo Cap ops r.2
    (QEvent.pushed r.1 :: rest.1, rest.2)
  | QOp.pop :: ops, l =>
    match FifoPop l with
    | none =>
      let rest := runFifo Cap ops l
      (QEvent.popped none :: rest.1, rest.2)
    | some (x, l2) =>
      let rest := runFifo Cap ops l2
      (QEvent.popped (some x) :: rest.1, rest.2)

/-- Replay of queue operations on the lock-free queue, recording each
reported result (the popped value on success, none on failure). -/
def LFState.runTrace {α : Type} [Inhabited α] (Cap : Nat) :
    List (QOp α) → LFState α → List (QEvent α) × LFState α
  | [], s => ([], s)
  | QOp.push item :: ops, s =>
    let r := LFState.push Cap s item
    let rest := LFState.runTrace Cap ops r.2
    (QEvent.pushed r.1 :: rest.1, rest.2)
  | QOp.pop :: ops, s =>
    let r := LFState.pop Cap s default
    let rest := LFState.runTrace Cap ops r.2.1
    (QEvent.popped (if r.1 then some r.2.2 else none) :: rest.1, rest.2)

theorem lf_push_toList {α : Type} {k Cap : Nat} (hk : Cap = 2 ^ k)
    {s : LFState α} (item : α) (hInv : LFInv Cap s)
    (hlt : s.writeIndex - s.readIndex < Cap) :
    (LFState.push Cap s item).1 = true ∧
    LFState.toList Cap (LFState.push Cap s item).2 =
      LFState.toList Cap s ++ [item] := by
  obtain ⟨h1, h2⟩ := hInv
  have hcond : ¬ (s.writeIndex + 1 - s.readIndex > Cap) := by omega
  refine ⟨by simp [LFState.push, hcond], ?_⟩
  have hw : (LFState.push Cap s item).2.writeIndex = s.writeIndex + 1 := by
    simp [LFState.push, hcond]
  have hrd : (LFState.push Cap s item).2.readIndex = s.readIndex := by
    simp [LFState.push, hcond]
  have hbuf : (LFState.push Cap s item).2.buffer =
      fun j => if j = s.writeIndex &&& (Cap - 1) then item else s.buffer j := by
    simp [LFState.push, hcond]
  unfold LFState.toList
  rw [hw, hrd, hbuf]
  have hocc : s.writeIndex + 1 - s.readIndex = (s.writeIndex - s.readIndex) + 1 := by
    omega
  rw [hocc, List.range_succ, List.map_append]
  congr 1
  · apply List.map_congr_left
    intro i hi
    have hi2 : i < s.writeIndex - s.readIndex := List.mem_range.1 hi
    have hne : (s.readIndex + i) &&& (Cap - 1) ≠ s.writeIndex &&& (Cap - 1) := by
      subst hk
      rw [land_mask_eq_mod, land_mask_eq_mod]
      exact mod_ne_of_lt_of_sub_lt (by omega) (by omega)
    simp only [hne, if_false]
  · have heq : s.readIndex + (s.writeIndex - s.readIndex) = s.writeIndex := by omega
    simp [heq]

theorem lf_push_toList_full {α : Type} {Cap : Nat} {s : LFState α} (item : α)
    (hInv : LFInv Cap s) (heq : s.writeIndex - s.readIndex = Cap) :
    (LFState.push Cap s item).1 = false ∧ (LFState.push Cap s item).2 = s := by
  obtain ⟨h1, h2⟩ := hInv
  have hcond : s.writeIndex + 1 - s.readIndex > Cap := by omega
  exact ⟨by simp [LFState.push, hcond], by simp [LFState.push, hcond]⟩

theorem lf_toList_empty {α : Type} (Cap : Nat) {s : LFState α}
    (he : s.readIndex = s.writeIndex) : LFState.toList Cap s = [] := by
  unfold LFState.toList
  rw [he, Nat.sub_self]
  rfl

theorem lf_pop_toList {α : Type} {k Cap : Nat} (hk : Cap = 2 ^ k)
    {s : LFState α} (v : α) (hInv : LFInv Cap s)
    (hne : s.readIndex ≠ s.writeIndex) :
    (LFState.pop Cap s v).1 = true ∧
    (LFState.pop Cap s v).2.2 = s.buffer (s.readIndex &&& (Cap - 1)) ∧
    LFState.toList Cap s =
      s.buffer (s.readIndex &&& (Cap - 1)) ::
        LFState.toList Cap (LFState.pop Cap s v).2.1 := by
  obtain ⟨h1, h2⟩ := hInv
  refine ⟨by simp [LFState.pop, hne], by simp [LFState.pop, hne], ?_⟩
  have hrd : (LFState.pop Cap s v).2.1.readIndex = s.readIndex + 1 := by
    simp [LFState.pop, hne]
  have hw : (LFState.pop Cap s v).2.1.writeIndex = s.writeIndex := by
    simp [LFState.pop, hne]
  have hbuf : (LFState.pop Cap s v).2.1.buffer = s.buffer := by
    simp [LFState.pop, hne]
  unfold LFState.toList
  rw [hrd, hw, hbuf]
  have hocc : s.writeIndex - s.readIndex = (s.writeIndex - (s.readIndex + 1)) + 1 := by
    omega
  rw [hocc, List.range_succ_eq_map, List.map_cons, List.map_map]
  congr 1
  apply List.map_congr_left
  intro a ha
  simp only [Function.comp_apply]
  have heq : s.readIndex + Nat.succ a = s.readIndex + 1 + a := by omega
  rw [heq]

theorem lf_trace_sim {α : Type} [Inhabited α] {k Cap : Nat} (hk : Cap = 2 ^ k) :
    ∀ (ops : List (QOp α)) (s : LFState α), LFInv Cap s →
      (LFState.runTrace Cap ops s).1 = (runFifo Cap ops (LFState.toList Cap s)).1 ∧
      LFState.toList Cap (LFState.runTrace Cap ops s).2 =
        (runFifo Cap ops (LFState.toList Cap s)).2 := by
  intro ops
  induction ops with
  | nil => exact fun s hInv => ⟨rfl, rfl⟩
  | cons op ops ih =>
    intro s hInv
    cases op with
    | push item =>
      by_cases hlt : s.writeIndex - s.readIndex < Cap
      · have hInv1 : LFInv Cap (LFState.push Cap s item).2 :=
          lf_step_inv Cap s (QOp.push item) hInv
        obtain ⟨ihev, ihlist⟩ := ih (LFState.push Cap s item).2 hInv1
        obtain ⟨hok, hlist⟩ := lf_push_toList hk item hInv hlt
        have hflen : (LFState.toList Cap s).length < Cap := by
          rw [lf_toList_length]; exact hlt
        simp only [LFState.runTrace, runFifo, FifoPush, hflen, if_true]
        constructor
        · rw [hok, ihev, hlist]
        · rw [ihlist, hlist]
      · have heq : s.writeIndex - s.readIndex = Cap := by
          have := hInv.2; omega
        obtain ⟨hfail, hstate⟩ := lf_push_toList_full item hInv heq
        obtain ⟨ihev, ihlist⟩ := ih s hInv
        have hflen : ¬ (LFState.toList Cap s).length < Cap := by
          rw [lf_toList_length]; omega
        simp only [LFState.runTrace, runFifo, FifoPush, hflen, if_false]
        constructor
        · rw [hfail, hstate, ihev]
        · rw [hstate, ihlist]
    | pop =>
      by_cases he : s.readIndex = s.writeIndex
      · have hempty : LFState.toList Cap s = [] := lf_toList_empty Cap he
        have hfail : (LFState.pop Cap s (default : α)).1 = false := by
          simp [LFState.pop, he]
        have hstate : (LFState.pop Cap s (default : α)).2.1 = s := by
          simp [LFState.pop, he]
        obtain ⟨ihev, ihlist⟩ := ih s hInv
        simp only [LFState.runTrace, runFifo, hempty, FifoPop]
        constructor
        · rw [hfail, hstate, ihev, hempty]
          simp
        · rw [hstate, ihlist, hempty]
      · have hInv1 : LFInv Cap (LFState.pop Cap s (default : α)).2.1 :=
          lf_step_inv Cap s QOp.pop hInv
        obtain ⟨ihev, ihlist⟩ := ih (LFState.pop Cap s (default : α)).2.1 hInv1
        obtain ⟨hok, hval, hlist⟩ := lf_pop_toList hk (default : α) hInv he
        simp only [LFState.runTrace, runFifo]
        rw [hlist]
        simp only [FifoPop]
        constructor
        · rw [hok, hval, ihev]
          simp
        · rw [ihlist]

theorem b_push_toListB {α : Type} {Cap : Nat} {s : BState α} (item : α)
    (hCap : 0 < Cap) (hW : Cap < W64) (hInv : BInvNS Cap s)
    (hlt : s.count < Cap) :
    BState.toList Cap (bPushed Cap s item) = BState.toList Cap s ++ [item] := by
  obtain ⟨hc, hr, hwix, hstop⟩ := hInv
  have hc1 : (s.count + 1) % W64 = s.count + 1 := b_count_inc (by omega)
  unfold BState.toList bPushed
  simp only [hc1]
  rw [List.range_succ, List.map_append]
  congr 1
  · apply List.map_congr_left
    intro i hi
    have hi2 : i < s.count := List.mem_range.1 hi
    have hne : (s.readIndex + i) % Cap ≠ s.writeIndex := by
      rw [hwix]
      exact mod_ne_of_lt_of_sub_lt (by omega) (by omega)
    simp only [hne, if_false]
  · rw [hwix]
    simp

theorem b_pop_toListB {α : Type} {Cap : Nat} {s : BState α}
    (hCap : 0 < Cap) (hW : Cap < W64) (hInv : BInvNS Cap s)
    (hpos : 0 < s.count) :
    BState.toList Cap s =
      s.buffer s.readIndex :: BState.toList Cap (bPopped Cap s) := by
  obtain ⟨hc, hr, hwix, hstop⟩ := hInv
  have hc1 : (s.count + (W64 - 1)) % W64 = s.count - 1 :=
    b_count_dec (by omega) (by omega)
  unfold BState.toList bPopped
  simp only [hc1]
  obtain ⟨n, hn⟩ : ∃ n, s.count = n + 1 := ⟨s.count - 1, by omega⟩
  rw [hn]
  simp only [Nat.add_sub_cancel]
  rw [List.range_succ_eq_map, List.map_cons, List.map_map]
  refine List.cons_eq_cons.mpr ⟨?_, ?_⟩
  · simp [Nat.mod_eq_of_lt hr]
  · apply List.map_congr_left
    intro a ha
    simp only [Function.comp_apply]
    rw [Nat.mod_add_mod]
    have heq : s.readIndex + Nat.succ a = s.readIndex + 1 + a := by omega
    rw [heq]

theorem b_trace_sim {α : Type} {Cap : Nat} (hCap : 0 < Cap) (hW : Cap < W64) :
    ∀ (ops : List (QOp α)) (s : BState α) (evs : List (QEvent α)) (t : BState α),
      BInvNS Cap s → BState.runB Cap ops s = some (evs, t) →
      evs = (runFifo Cap ops (BState.toList Cap s)).1 ∧
      BState.toList Cap t = (runFifo Cap ops (BState.toList Cap s)).2 := by
  intro ops
  induction ops with
  | nil =>
    intro s evs t hInv h
    simp only [BState.runB, Option.some.injEq, Prod.mk.injEq] at h
    obtain ⟨h1, h2⟩ := h
    subst h1
    subst h2
    exact ⟨rfl, rfl⟩
  | cons op ops ih =>
    intro s evs t hInv h
    cases op with
    | push item =>
      by_cases hlt : s.count < Cap
      · simp only [BState.runB, b_push_eq_of_cond Cap s item (Or.inl hlt)] at h
        cases hrec : BState.runB Cap ops (bPushed Cap s item) with
        | none => rw [hrec] at h; exact Option.noConfusion h
        | some p =>
          rw [hrec] at h
          obtain ⟨evs1, t1⟩ := p
          simp only [Option.some.injEq, Prod.mk.injEq] at h
          obtain ⟨h1, h2⟩ := h
          subst h2
          obtain ⟨hInv1, -⟩ := bPushed_inv item hCap hW hInv hlt
          obtain ⟨ihev, ihlist⟩ := ih (bPushed Cap s item) evs1 t1 hInv1 hrec
          have hflen : (BState.toList Cap s).length < Cap := by
            rw [b_toList_length]; exact hlt
          have hlist := b_push_toListB item hCap hW hInv hlt
          simp only [runFifo, FifoPush, hflen, if_true]
          constructor
          · rw [← h1, ihev, hlist]
          · rw [ihlist, hlist]
      · have hcond : ¬ pushWaitCond Cap s := by
          simp [pushWaitCond, hlt, hInv.2.2.2]
        simp only [BState.runB, b_push_none Cap s item hcond] at h
        exact Option.noConfusion h
    | pop =>
      by_cases hpos : 0 < s.count
      · simp only [BState.runB, b_pop_eq_of_cond Cap s (Or.inl hpos)] at h
        cases hrec : BState.runB Cap ops (bPopped Cap s) with
        | none => rw [hrec] at h; exact Option.noConfusion h
        | some p =>
          rw [hrec] at h
          obtain ⟨evs1, t1⟩ := p
          simp only [Option.some.injEq, Prod.mk.injEq] at h
          obtain ⟨h1, h2⟩ := h
          subst h2
          obtain ⟨hInv1, -⟩ := bPopped_inv hCap hW hInv hpos
          obtain ⟨ihev, ihlist⟩ := ih (bPopped Cap s) evs1 t1 hInv1 hrec
          have hlist := b_pop_toListB hCap hW hInv hpos
          simp only [runFifo]
          rw [hlist]
          simp only [FifoPop]
          constructor
          · rw [← h1, ihev]
            simp
          · rw [ihlist]
      · have hcond : ¬ popWaitCond s := by
          simp [popWaitCond, hInv.2.2.2]
          omega
        simp only [BState.runB, b_pop_none Cap s hcond] at h
        exact Option.noConfusion h

/-- C3: both ring-buffer variants refine the abstract bounded FIFO list
queue.  For the lock-free variant, every operation sequence from the
empty queue yields, step by step, exactly the events and the abstract
queue contents of the abstract FIFO run (so popped values equal pushed
values in push order, each accepted item popped exactly once).  For the
blocking variant, every completed sequence of push and pop operations
(no stop) yields exactly the abstract FIFO events and contents. -/
theorem c3_fifo_refinement (α : Type) [Inhabited α] (k CapL CapB : Nat)
    (opsL opsB : List (QOp α)) (evs : List (QEvent α)) (t : BState α)
    (hk : CapL = 2 ^ k) (hB0 : 0 < CapB) (hBW : CapB < W64)
    (hB : BState.runB CapB opsB (BState.init α) = some (evs, t)) :
    ((LFState.runTrace CapL opsL (LFState.init α)).1 =
        (runFifo CapL opsL ([] : List α)).1 ∧
      LFState.toList CapL (LFState.runTrace CapL opsL (LFState.init α)).2 =
        (runFifo CapL opsL ([] : List α)).2) ∧
    (evs = (runFifo CapB opsB ([] : List α)).1 ∧
      BState.toList CapB t = (runFifo CapB opsB ([] : List α)).2) := by
  have hLFempty : LFState.toList CapL (LFState.init α) = [] := by
    simp [LFState.toList, LFState.init]
  have hBempty : BState.toList CapB (BState.init α) = [] := by
    simp [BState.toList, BState.init]
  constructor
  · have h := lf_trace_sim hk opsL (LFState.init α) (lf_init_inv CapL)
    rw [hLFempty] at h
    exact h
  · have h := b_trace_sim hB0 hBW opsB (BState.init α) evs t (b_init_invNS hB0) hB
    rw [hBempty] at h
    exact h

/-- Operation sequences used in the C3 witness. -/
def c3demoOps : List (QOp Nat) :=
  [QOp.push 7, QOp.push 8, QOp.pop, QOp.pop, QOp.pop]

def c3demoOpsB : List (QOp Nat) := [QOp.push 7, QOp.push 8, QOp.pop, QOp.pop]

/-- Witness for C3: on a capacity-4 lock-free queue the trace of two
pushes and three pops equals the abstract FIFO trace, which pops 7 then
8 in push order and then reports empty. -/
theorem c3_witness :
    ((LFState.runTrace 4 c3demoOps (LFState.init Nat)).1 =
      (runFifo 4 c3demoOps ([] : List Nat)).1) ∧
    ((LFState.runTrace 4 c3demoOps (LFState.init Nat)).1 =
      [QEvent.pushed true, QEvent.pushed true, QEvent.popped (some 7),
        QEvent.popped (some 8), QEvent.popped none]) := by
  have h := c3_fifo_refinement Nat 2 4 4 c3demoOps c3demoOpsB _ _
    (by norm_num) (by norm_num) (by norm_num [W64]) rfl
  refine ⟨h.1.1, ?_⟩
  rw [h.1.1]
  decide

/-! ## FIX message encoding (include/fix/message.h) -/

/-- ASCII byte values of a string. -/
def strBytes (s : String) : List Nat := s.data.map Char.toNat

/-- ASCII bytes of the decimal representation of a natural number. -/
def natBytes (n : Nat) : List Nat := (Nat.toDigits 10 n).map Char.toNat

/-- FIXMessage::addField: appends the decimal tag, an equals sign, the
value and the SOH separator byte 0x01 to the body buffer. -/
def addField (body : List Nat) (tag : Nat) (value : String) : List Nat :=
  body ++ natBytes tag ++ [61] ++ strBytes value ++ [1]

/-- The body buffer produced by a sequence of addField calls starting
from a cleared body. -/
def buildBody (fields : List (Nat × String)) : List Nat :=
  fields.foldl (fun b f => addField b f.1 f.2) []

/-- Zero padding to width three, as the format string 10={:03} does. -/
def pad3 (n : Nat) : List Nat :=
  if n < 10 then [48, 48] ++ natBytes n
  else if n < 100 then [48] ++ natBytes n
  else natBytes n

/-- FIXMessage::finalize: clears the output buffer, appends the 8= tag
with the begin string and SOH, then 9= with the byte count of the body
and SOH, then the body, then computes the byte sum of everything
accumulated so far modulo 256 and appends 10= with the checksum padded
to three digits, and SOH. -/
def finalize (beginString : String) (body : List Nat) : List Nat :=
  let header := strBytes "8=" ++ strBytes beginString ++ [1]
      ++ strBytes "9=" ++ natBytes body.length ++ [1]
  let headerAndBody := header ++ body
  let checkSum := headerAndBody.sum % 256
  headerAndBody ++ strBytes "10=" ++ pad3 checkSum ++ [1]

/-- C6: for every body built by addField calls (each appending
tag=value followed by byte 0x01), finalize returns exactly the bytes
8=beginString SOH 9=bodyLength SOH body 10=checksum SOH, where
bodyLength is the byte count of the body and the checksum is the byte
sum of header plus body modulo 256, printed as a zero-padded
three-digit decimal. -/
theorem c6_fix_message_bytes (beginString : String)
    (fields : List (Nat × String)) :
    finalize beginString (buildBody fields) =
      strBytes "8=" ++ strBytes beginString ++ [1] ++
        strBytes "9=" ++ natBytes (buildBody fields).length ++ [1] ++
        buildBody fields ++
        strBytes "10=" ++
        pad3 ((strBytes "8=" ++ strBytes beginString ++ [1] ++
          strBytes "9=" ++ natBytes (buildBody fields).length ++ [1] ++
          buildBody fields).sum % 256) ++ [1] ∧
    (∀ (body : List Nat) (tag : Nat) (value : String),
      addField body tag value =
        body ++ natBytes tag ++ [61] ++ strBytes value ++ [1]) := by
  constructor
  · simp [finalize, List.append_assoc]
  · intro body tag value
    rfl

/-! ## Random walk price generator (random_walk_generator.h) -/

/-- RandomWalkGenerator::getNextPrice over exact rationals, given the
current price, the stored step size and the standard normal sample:
steps up by the step size when the sample is positive, down otherwise,
and resets the price to the stored step size when the result would be
non-positive.  The return value is also the new current price. -/
def getNextPrice (currentPrice stepSize : ℚ) (z : ℚ) : ℚ :=
  let step := if z > 0 then stepSize else -stepSize
  let next := currentPrice + step
  if next ≤ 0 then stepSize else next

/-- The step size stored by the RandomWalkGenerator constructor: the
absolute value of its stepSize argument. -/
def storedStep (stepSize : ℚ) : ℚ := |stepSize|

/-- Counterexample for C7 as stated: a generator constructed with
startPrice 0 and stepSize 0 returns 0 from its first getNextPrice
call, so the returned price is not strictly positive for every
startPrice and stepSize. -/
theorem c7_counterexample : getNextPrice 0 (storedStep 0) 1 = 0 := by
  norm_num [getNextPrice, storedStep]

/-- C7 (amended): getNextPrice returns prev + stepSize when the sample
is positive and prev - stepSize otherwise (the stored stepSize being
the absolute value of the constructor argument), except that when that
result would be non-positive it resets the price to the stored
stepSize; consequently the returned price is strictly positive on
every call whenever the constructor stepSize argument is nonzero. -/
theorem c7_random_walk_positive (prev s0 z : ℚ) (hs : s0 ≠ 0) :
    (0 < z → getNextPrice prev (storedStep s0) z =
      (if prev + storedStep s0 ≤ 0 then storedStep s0
        else prev + storedStep s0)) ∧
    (z ≤ 0 → getNextPrice prev (storedStep s0) z =
      (if prev - storedStep s0 ≤ 0 then storedStep s0
        else prev - storedStep s0)) ∧
    0 < getNextPrice prev (storedStep s0) z := by
  have habs : 0 < storedStep s0 := abs_pos.mpr hs
  refine ⟨?_, ?_, ?_⟩
  · intro hz
    simp only [getNextPrice, if_pos hz]
  · intro hz
    have hz2 : ¬ (z > 0) := not_lt.mpr hz
    simp only [getNextPrice, if_neg hz2, ← sub_eq_add_neg]
  · by_cases hz : z > 0
    · simp only [getNextPrice, if_pos hz]
      by_cases hle : prev + storedStep s0 ≤ 0
      · rw [if_pos hle]; exact habs
      · rw [if_neg hle]; linarith
    · simp only [getNextPrice, if_neg hz]
      by_cases hle : prev + -storedStep s0 ≤ 0
      · rw [if_pos hle]; exact habs
      · rw [if_neg hle]; linarith

/-- Witness for C7: with step size 1, a positive sample moves 100 to
101 (positive), and a negative sample from one half resets to 1. -/
theorem c7_witness :
    getNextPrice 100 (storedStep 1) 1 = 101 ∧
    0 < getNextPrice 100 (storedStep 1) 1 ∧
    getNextPrice (1/2) (storedStep 1) (-1) = 1 := by
  have h1 := c7_random_walk_positive 100 1 1 (by norm_num)
  have h2 := c7_random_walk_positive (1/2) 1 (-1) (by norm_num)
  refine ⟨?_, h1.2.2, ?_⟩
  · rw [h1.1 (by norm_num)]
    norm_num [storedStep]
  · rw [h2.2.1 (by norm_num)]
    norm_num [storedStep]

/-! ## Packet capture payload extraction (PacketCapturer header) -/

/-- PacketCapturer::handlePacket over the captured frame bytes, caplen
being the length of the list: skips the 14 byte Ethernet header, takes
the IP header length as the low four bits of the first IP byte times
four, skips the 8 byte UDP header, drops the frame (warning logged)
when the captured length is below the total header length, and hands
the remaining payload to the callback only when it is nonempty.  The
result is the byte list given to the callback, or none when the
callback is not invoked. -/
def handlePacket (frame : List Nat) : Option (List Nat) :=
  let ipHeaderLength := ((frame.getD 14 0) &&& 15) * 4
  let totalHeaderLen := 14 + ipHeaderLength + 8
  if frame.length < totalHeaderLen then none
  else
    let payloadSize := frame.length - totalHeaderLen
    if payloadSize > 0 then some (List.drop totalHeaderLen frame) else none

/-- C8 (amended): a frame with caplen below 14 + ihl*4 + 8 is dropped
with a logged warning; a frame with caplen strictly above that header
length has the payload at offset 14 + ihl*4 + 8 of length caplen minus
the header length delivered to the callback; and a frame whose caplen
equals the header length exactly (empty payload) is also not delivered
because the code additionally requires a positive payload size. -/
theorem c8_packet_payload (frame : List Nat) (h14 : 14 < frame.length) :
    (frame.length < 14 + ((frame.getD 14 0) &&& 15) * 4 + 8 →
      handlePacket frame = none) ∧
    (14 + ((frame.getD 14 0) &&& 15) * 4 + 8 < frame.length →
      handlePacket frame =
        some (List.drop (14 + ((frame.getD 14 0) &&& 15) * 4 + 8) frame) ∧
      ∀ p, handlePacket frame = some p →
        p.length = frame.length - (14 + ((frame.getD 14 0) &&& 15) * 4 + 8)) ∧
    (frame.length = 14 + ((frame.getD 14 0) &&& 15) * 4 + 8 →
      handlePacket frame = none) := by
  refine ⟨?_, ?_, ?_⟩
  · intro hlt
    simp only [handlePacket, if_pos hlt]
  · intro hgt
    have hnlt : ¬ (frame.length < 14 + ((frame.getD 14 0) &&& 15) * 4 + 8) := by
      omega
    have hpos : frame.length - (14 + ((frame.getD 14 0) &&& 15) * 4 + 8) > 0 := by
      omega
    have heq : handlePacket frame =
        some (List.drop (14 + ((frame.getD 14 0) &&& 15) * 4 + 8) frame) := by
      simp only [handlePacket, if_neg hnlt, if_pos hpos]
    refine ⟨heq, ?_⟩
    intro p hp
    rw [heq] at hp
    have hp2 := Option.some.inj hp
    rw [← hp2, List.length_drop]
  · intro hexact
    have hnlt : ¬ (frame.length < 14 + ((frame.getD 14 0) &&& 15) * 4 + 8) := by
      omega
    have hnpos : ¬ (frame.length - (14 + ((frame.getD 14 0) &&& 15) * 4 + 8) > 0) := by
      omega
    simp only [handlePacket, if_neg hnlt, if_neg hnpos]

/-- The counterexample frame: Ethernet header, minimal 20 byte IP
header whose first byte is 69 (version 4, ihl 5), UDP header, empty
payload; 42 bytes captured in total. -/
def c8demoFrame : List Nat := List.replicate 14 0 ++ [69] ++ List.replicate 27 0

/-- The witness frame: as the counterexample frame plus one payload
byte 56, 43 bytes captured in total. -/
def c8demoFrame2 : List Nat :=
  List.replicate 14 0 ++ [69] ++ List.replicate 27 0 ++ [56]

/-- Counterexample for C8 as stated: on a 42 byte frame with ihl 5 the
captured length equals the computed header length, so it is not below
it, yet the callback is not invoked (the code also requires a positive
payload size), while the claim as stated would deliver an empty
payload. -/
theorem c8_counterexample :
    c8demoFrame.length = 14 + ((c8demoFrame.getD 14 0) &&& 15) * 4 + 8 ∧
    handlePacket c8demoFrame = none := by
  constructor <;> rfl

/-- Witness for C8: on the 43 byte frame the callback receives exactly
the one payload byte. -/
theorem c8_witness : handlePacket c8demoFrame2 = some [56] := by
  have h := (c8_packet_payload c8demoFrame2 (by decide)).2.1 (by decide)
  rw [h.1]
  rfl

/-- Operation sequence used in the C2 witness. -/
def c2demoOps : List (QOp Nat) := [QOp.push 1, QOp.push 2, QOp.pop, QOp.push 3]

/-- Witness for C2: a concrete run on a capacity-4 lock-free queue
keeps the occupancy within capacity and reports it through size. -/
theorem c2_witness :
    (LFState.run 4 c2demoOps (LFState.init Nat)).writeIndex -
      (LFState.run 4 c2demoOps (LFState.init Nat)).readIndex ≤ 4 ∧
    LFState.size (LFState.run 4 c2demoOps (LFState.init Nat)) =
      (LFState.run 4 c2demoOps (LFState.init Nat)).writeIndex -
        (LFState.run 4 c2demoOps (LFState.init Nat)).readIndex ∧
    LFState.capacity 4 (LFState.run 4 c2demoOps (LFState.init Nat)) = 4 := by
  have h := c2_lockfree_occupancy_invariant Nat 4 c2demoOps
  exact ⟨h.2.1, h.2.2.1, h.2.2.2⟩

/-- The field sequence used in the C6 witness: a market data snapshot
header fragment. -/
def c6demoFields : List (Nat × String) := [(35, "W"), (55, "ESZ5")]

/-- Witness for C6: the finalize equation applied at the FIX.4.2 begin
string and a concrete field sequence. -/
theorem c6_witness :
    finalize "FIX.4.2" (buildBody c6demoFields) =
      strBytes "8=" ++ strBytes "FIX.4.2" ++ [1] ++
        strBytes "9=" ++ natBytes (buildBody c6demoFields).length ++ [1] ++
        buildBody c6demoFields ++
        strBytes "10=" ++
        pad3 ((strBytes "8=" ++ strBytes "FIX.4.2" ++ [1] ++
          strBytes "9=" ++ natBytes (buildBody c6demoFields).length ++ [1] ++
          buildBody c6demoFields).sum % 256) ++ [1] :=
  (c6_fix_message_bytes "FIX.4.2" c6demoFields).1

end FeedSim
